import Mathlib

/-!
Formal model of `src/pthelp.py` from the rest-os repository.

The file contains a single Python function, `get_addr_index`, which splits a
virtual address into the four 9-bit page-table level indices of a four-level
paging scheme.  Python integers are unbounded and behave as infinite
two's-complement bit patterns: `>>` is an arithmetic (floor) shift and `&` is
bitwise conjunction on that pattern.  The model therefore uses `Int`,
translating Python's `>>` to `Int.shiftRight` and Python's `&` to `Int.land`,
both of which implement exactly those two's-complement semantics.
-/

namespace PtHelp

/-- Model of `get_addr_index` from `src/pthelp.py`:
`p1 = (addr >> 12) & 0x1ff`, `p2 = (addr >> 21) & 0x1ff`,
`p3 = (addr >> 30) & 0x1ff`, `p4 = (addr >> 39) & 0x1ff`,
result `(p4, p3, p2, p1)`. -/
def get_addr_index (addr : Int) : Int × Int × Int × Int :=
  let p1 := Int.land (Int.shiftRight addr 12) 0x1ff
  let p2 := Int.land (Int.shiftRight addr 21) 0x1ff
  let p3 := Int.land (Int.shiftRight addr 30) 0x1ff
  let p4 := Int.land (Int.shiftRight addr 39) 0x1ff
  (p4, p3, p2, p1)

/-- Flip bit `i` of the two's-complement representation of `a`: add `2 ^ i`
when bit `i` is clear, subtract it when bit `i` is set.  This changes exactly
bit `i` of the bit pattern and no other bit. -/
def flipBit (a : Int) (i : Nat) : Int :=
  if a / 2 ^ i % 2 = 0 then a + 2 ^ i else a - 2 ^ i

/-- On naturals, `Nat.ldiff 511 m` is the 9-bit complement of `m % 512`. -/
lemma ldiff_511_eq (m : Nat) : Nat.ldiff 511 m = 511 - m % 512 := by
  have h512 : (512 : Nat) = 2 ^ 9 := by norm_num
  have hlt : m % 512 < 2 ^ 9 := by omega
  apply Nat.eq_of_testBit_eq
  intro i
  have hsub : (511 : Nat) - m % 512 = 2 ^ 9 - (m % 512 + 1) := by omega
  rw [Nat.testBit_ldiff, hsub, Nat.testBit_two_pow_sub_succ hlt,
    show (511 : Nat) = 2 ^ 9 - 1 from by norm_num, Nat.testBit_two_pow_sub_one,
    h512, Nat.testBit_mod_two_pow]
  by_cases hi : i < 9 <;> simp [hi]

/-- Python's `x & 0x1ff` on an arbitrary integer equals `x % 512`
(euclidean remainder), including for negative `x`. -/
lemma land_511_eq (x : Int) : Int.land x 511 = x % 512 := by
  cases x with
  | ofNat m =>
      show ((m &&& 511 : Nat) : Int) = (Int.ofNat m) % 512
      have hm : m &&& 511 = m % 512 := by
        have h := Nat.and_pow_two_sub_one_eq_mod m 9
        norm_num at h
        exact h
      rw [hm, Int.ofNat_eq_natCast]
      omega
  | negSucc m =>
      show ((Nat.ldiff 511 m : Nat) : Int) = (Int.negSucc m) % 512
      rw [ldiff_511_eq, Int.negSucc_eq]
      omega

/-- Python's arithmetic right shift on an arbitrary integer is euclidean
division by the corresponding power of two. -/
lemma shiftRight_div (x : Int) (n : Nat) : Int.shiftRight x n = x / (2 ^ n : Int) := by
  rw [← Int.shiftRight_eq, Int.shiftRight_eq_div_pow]
  norm_num

/-- Arithmetic characterisation of `get_addr_index`: the four components are
the euclidean div/mod field extractions at shifts 39, 30, 21, 12. -/
theorem get_addr_index_eq (a : Int) :
    get_addr_index a =
      (a / 2 ^ 39 % 512, a / 2 ^ 30 % 512, a / 2 ^ 21 % 512, a / 2 ^ 12 % 512) := by
  simp only [get_addr_index, shiftRight_div, land_511_eq]

/-- Flipping a bit in `[12, 20]` changes the level-1 field and no other. -/
lemma flip_band1 (a : Int) (i : Nat) (h12 : 12 ≤ i) (h20 : i ≤ 20) :
    flipBit a i / 2 ^ 39 % 512 = a / 2 ^ 39 % 512 ∧
    flipBit a i / 2 ^ 30 % 512 = a / 2 ^ 30 % 512 ∧
    flipBit a i / 2 ^ 21 % 512 = a / 2 ^ 21 % 512 ∧
    flipBit a i / 2 ^ 12 % 512 ≠ a / 2 ^ 12 % 512 := by
  simp only [flipBit]
  interval_cases i <;> split_ifs <;> omega

/-- Flipping a bit in `[21, 29]` changes the level-2 field and no other. -/
lemma flip_band2 (a : Int) (i : Nat) (h21 : 21 ≤ i) (h29 : i ≤ 29) :
    flipBit a i / 2 ^ 39 % 512 = a / 2 ^ 39 % 512 ∧
    flipBit a i / 2 ^ 30 % 512 = a / 2 ^ 30 % 512 ∧
    flipBit a i / 2 ^ 21 % 512 ≠ a / 2 ^ 21 % 512 ∧
    flipBit a i / 2 ^ 12 % 512 = a / 2 ^ 12 % 512 := by
  simp only [flipBit]
  interval_cases i <;> split_ifs <;> omega

/-- Flipping a bit in `[30, 38]` changes the level-3 field and no other. -/
lemma flip_band3 (a : Int) (i : Nat) (h30 : 30 ≤ i) (h38 : i ≤ 38) :
    flipBit a i / 2 ^ 39 % 512 = a / 2 ^ 39 % 512 ∧
    flipBit a i / 2 ^ 30 % 512 ≠ a / 2 ^ 30 % 512 ∧
    flipBit a i / 2 ^ 21 % 512 = a / 2 ^ 21 % 512 ∧
    flipBit a i / 2 ^ 12 % 512 = a / 2 ^ 12 % 512 := by
  simp only [flipBit]
  interval_cases i <;> split_ifs <;> omega

/-- Flipping a bit in `[39, 47]` changes the level-4 field and no other. -/
lemma flip_band4 (a : Int) (i : Nat) (h39 : 39 ≤ i) (h47 : i ≤ 47) :
    flipBit a i / 2 ^ 39 % 512 ≠ a / 2 ^ 39 % 512 ∧
    flipBit a i / 2 ^ 30 % 512 = a / 2 ^ 30 % 512 ∧
    flipBit a i / 2 ^ 21 % 512 = a / 2 ^ 21 % 512 ∧
    flipBit a i / 2 ^ 12 % 512 = a / 2 ^ 12 % 512 := by
  simp only [flipBit]
  interval_cases i <;> split_ifs <;> omega

/-- On naturals, masking with `0xFFFFFFFFF000` keeps exactly bits 12–47. -/
lemma and_mask_eq (n : Nat) : n &&& 0xFFFFFFFFF000 = n % 2 ^ 48 - n % 2 ^ 12 := by
  have hM : (0xFFFFFFFFF000 : Nat) = (2 ^ 36 - 1) <<< 12 := by
    rw [Nat.shiftLeft_eq]
    norm_num
  have hR : n % 2 ^ 48 - n % 2 ^ 12 = ((n >>> 12) % 2 ^ 36) <<< 12 := by
    rw [Nat.shiftLeft_eq, Nat.shiftRight_eq_div_pow]
    omega
  rw [hM, hR]
  apply Nat.eq_of_testBit_eq
  intro i
  rw [Nat.testBit_and, Nat.testBit_shiftLeft, Nat.testBit_shiftLeft,
    Nat.testBit_mod_two_pow, Nat.testBit_shiftRight, Nat.testBit_two_pow_sub_one]
  by_cases h1 : 12 ≤ i
  · rw [show 12 + (i - 12) = i from by omega]
    cases htb : n.testBit i <;> simp [h1, htb]
  · simp [h1]

/-- C1: for every address `a`, `get_addr_index a` is the ordered 4-tuple
`((a >> 39) & 0x1FF, (a >> 30) & 0x1FF, (a >> 21) & 0x1FF, (a >> 12) & 0x1FF)`,
i.e. the four 9-bit fields of `a` at bit offsets 39, 30, 21 and 12, most
significant field first. -/
theorem c1_field_extraction (a : Int) :
    get_addr_index a =
      (Int.land (Int.shiftRight a 39) 0x1ff, Int.land (Int.shiftRight a 30) 0x1ff,
       Int.land (Int.shiftRight a 21) 0x1ff, Int.land (Int.shiftRight a 12) 0x1ff) ∧
    get_addr_index a =
      (a / 2 ^ 39 % 2 ^ 9, a / 2 ^ 30 % 2 ^ 9, a / 2 ^ 21 % 2 ^ 9, a / 2 ^ 12 % 2 ^ 9) :=
  ⟨rfl, by rw [get_addr_index_eq]; norm_num⟩

/-- C2: every one of the four fields returned by `get_addr_index` lies in
the range `[0, 511]`, for every integer address. -/
theorem c2_field_range (a : Int) :
    0 ≤ (get_addr_index a).1 ∧ (get_addr_index a).1 ≤ 511 ∧
    0 ≤ (get_addr_index a).2.1 ∧ (get_addr_index a).2.1 ≤ 511 ∧
    0 ≤ (get_addr_index a).2.2.1 ∧ (get_addr_index a).2.2.1 ≤ 511 ∧
    0 ≤ (get_addr_index a).2.2.2 ∧ (get_addr_index a).2.2.2 ≤ 511 := by
  simp only [get_addr_index_eq]
  omega

/-- C3: `get_addr_index` maps the six concrete addresses of the spec to
exactly the stated tuples. -/
theorem c3_concrete_cases :
    get_addr_index 0x0 = (0, 0, 0, 0) ∧
    get_addr_index 0x1000 = (0, 0, 0, 1) ∧
    get_addr_index 0x200000 = (0, 0, 1, 0) ∧
    get_addr_index 0x40000000 = (0, 1, 0, 0) ∧
    get_addr_index 0x8000000000 = (1, 0, 0, 0) ∧
    get_addr_index 0xFFFFFFFFFFFF = (511, 511, 511, 511) := by
  simp only [get_addr_index_eq]
  decide

/-- C4: the low 12 bits of the address never influence the result (replacing
them by any `k` in `[0, 4095]` leaves the output unchanged), and two
addresses that agree on bits 12–47 produce equal outputs, whatever their
bits 48 and above. -/
theorem c4_offset_independence (a b k : Int) (hk0 : 0 ≤ k) (hk : k ≤ 4095)
    (hab : a / 4096 % 2 ^ 36 = b / 4096 % 2 ^ 36) :
    get_addr_index (a - a % 4096 + k) = get_addr_index a ∧
    get_addr_index a = get_addr_index b := by
  simp only [get_addr_index_eq, Prod.mk.injEq]
  refine ⟨⟨?_, ?_, ?_, ?_⟩, ?_, ?_, ?_, ?_⟩ <;> omega

theorem c4_offset_independence_witness :
    get_addr_index (0x123456789ABC - 0x123456789ABC % 4096 + 7) =
      get_addr_index 0x123456789ABC ∧
    get_addr_index 0x123456789ABC = get_addr_index (0x123456789ABC + 2 ^ 48) :=
  c4_offset_independence 0x123456789ABC (0x123456789ABC + 2 ^ 48) 7
    (by norm_num) (by norm_num) (by decide)

/-- C5: flipping any single address bit `i` with `12 ≤ i ≤ 47` changes
exactly one of the four output fields, namely the one whose source range
(`[12,20]`, `[21,29]`, `[30,38]`, `[39,47]`) contains `i`; the other three
fields are unchanged. -/
theorem c5_bit_locality (a : Int) (i : Nat) (h12 : 12 ≤ i) (h47 : i ≤ 47) :
    (i ≤ 20 →
      (get_addr_index (flipBit a i)).1 = (get_addr_index a).1 ∧
      (get_addr_index (flipBit a i)).2.1 = (get_addr_index a).2.1 ∧
      (get_addr_index (flipBit a i)).2.2.1 = (get_addr_index a).2.2.1 ∧
      (get_addr_index (flipBit a i)).2.2.2 ≠ (get_addr_index a).2.2.2) ∧
    (21 ≤ i → i ≤ 29 →
      (get_addr_index (flipBit a i)).1 = (get_addr_index a).1 ∧
      (get_addr_index (flipBit a i)).2.1 = (get_addr_index a).2.1 ∧
      (get_addr_index (flipBit a i)).2.2.1 ≠ (get_addr_index a).2.2.1 ∧
      (get_addr_index (flipBit a i)).2.2.2 = (get_addr_index a).2.2.2) ∧
    (30 ≤ i → i ≤ 38 →
      (get_addr_index (flipBit a i)).1 = (get_addr_index a).1 ∧
      (get_addr_index (flipBit a i)).2.1 ≠ (get_addr_index a).2.1 ∧
      (get_addr_index (flipBit a i)).2.2.1 = (get_addr_index a).2.2.1 ∧
      (get_addr_index (flipBit a i)).2.2.2 = (get_addr_index a).2.2.2) ∧
    (39 ≤ i →
      (get_addr_index (flipBit a i)).1 ≠ (get_addr_index a).1 ∧
      (get_addr_index (flipBit a i)).2.1 = (get_addr_index a).2.1 ∧
      (get_addr_index (flipBit a i)).2.2.1 = (get_addr_index a).2.2.1 ∧
      (get_addr_index (flipBit a i)).2.2.2 = (get_addr_index a).2.2.2) := by
  simp only [get_addr_index_eq]
  exact ⟨fun h20 => flip_band1 a i h12 h20,
         fun h21 h29 => flip_band2 a i h21 h29,
         fun h30 h38 => flip_band3 a i h30 h38,
         fun h39 => flip_band4 a i h39 h47⟩

theorem c5_bit_locality_witness :
    (get_addr_index (flipBit 5 12)).2.2.2 ≠ (get_addr_index 5).2.2.2 :=
  ((c5_bit_locality 5 12 (by norm_num) (by norm_num)).1 (by norm_num)).2.2.2

/-- C6: `get_addr_index` is total: for every integer input it returns a
4-tuple; there is no precondition and no error branch. -/
theorem c6_total (a : Int) :
    ∃ p4 p3 p2 p1 : Int, get_addr_index a = (p4, p3, p2, p1) :=
  ⟨_, _, _, _, rfl⟩

/-- C7: `get_addr_index` is deterministic and referentially transparent: it
is a pure function of its argument, so equal inputs give identical tuples. -/
theorem c7_deterministic (a b : Int) (h : a = b) :
    get_addr_index a = get_addr_index b := by
  rw [h]

theorem c7_deterministic_witness :
    get_addr_index 0x123456789ABC = get_addr_index 0x123456789ABC :=
  c7_deterministic 0x123456789ABC 0x123456789ABC rfl

/-- C8: for non-negative addresses the output determines exactly bits 12–47
of the input: recombining the fields with their shifts gives
`a &&& 0xFFFFFFFFF000`, and equal outputs force equal values of that mask. -/
theorem c8_roundtrip (a b : Int) (ha : 0 ≤ a) (hb : 0 ≤ b) :
    (get_addr_index a).1 * 2 ^ 39 + (get_addr_index a).2.1 * 2 ^ 30 +
      (get_addr_index a).2.2.1 * 2 ^ 21 + (get_addr_index a).2.2.2 * 2 ^ 12 =
      Int.land a 0xFFFFFFFFF000 ∧
    (get_addr_index a = get_addr_index b →
      Int.land a 0xFFFFFFFFF000 = Int.land b 0xFFFFFFFFF000) := by
  obtain ⟨n, rfl⟩ := Int.eq_ofNat_of_zero_le ha
  obtain ⟨m, rfl⟩ := Int.eq_ofNat_of_zero_le hb
  have hland : ∀ k : Nat,
      Int.land (k : Int) 0xFFFFFFFFF000 = ((k % 2 ^ 48 - k % 2 ^ 12 : Nat) : Int) := by
    intro k
    show ((k &&& 0xFFFFFFFFF000 : Nat) : Int) = _
    rw [and_mask_eq]
  rw [hland, hland]
  simp only [get_addr_index_eq, Prod.mk.injEq]
  constructor
  · omega
  · intro h
    omega

theorem c8_roundtrip_witness :
    (get_addr_index 0x123456789ABC).1 * 2 ^ 39 + (get_addr_index 0x123456789ABC).2.1 * 2 ^ 30 +
      (get_addr_index 0x123456789ABC).2.2.1 * 2 ^ 21 +
      (get_addr_index 0x123456789ABC).2.2.2 * 2 ^ 12 =
      Int.land 0x123456789ABC 0xFFFFFFFFF000 :=
  (c8_roundtrip 0x123456789ABC 0x123456789ABC (by norm_num) (by norm_num)).1

/-- C9: `get_addr_index` accepts every negative integer: the four fields
still lie in `[0, 511]`, the result is computed from the two's-complement
bit pattern (it agrees with the result on `a % 2 ^ 48`, the low 48 bits of
that pattern), and `get_addr_index (-1) = (511, 511, 511, 511)`. -/
theorem c9_negative_inputs (a : Int) (_h : a < 0) :
    (0 ≤ (get_addr_index a).1 ∧ (get_addr_index a).1 ≤ 511 ∧
     0 ≤ (get_addr_index a).2.1 ∧ (get_addr_index a).2.1 ≤ 511 ∧
     0 ≤ (get_addr_index a).2.2.1 ∧ (get_addr_index a).2.2.1 ≤ 511 ∧
     0 ≤ (get_addr_index a).2.2.2 ∧ (get_addr_index a).2.2.2 ≤ 511) ∧
    get_addr_index a = get_addr_index (a % 2 ^ 48) ∧
    get_addr_index (-1) = (511, 511, 511, 511) := by
  simp only [get_addr_index_eq, Prod.mk.injEq]
  refine ⟨by omega, ⟨?_, ?_, ?_, ?_⟩, by decide⟩ <;> omega

theorem c9_negative_inputs_witness :
    get_addr_index (-1) = (511, 511, 511, 511) :=
  (c9_negative_inputs (-1) (by norm_num)).2.2

end PtHelp
